import Mathlib

set_option autoImplicit false
set_option linter.unusedSectionVars false

/-!
Shallow embedding of the tower P2C balancer (src/tower-balance/src/lib.rs),
the elastic pool (src/tower-pool) and the fixed-point Weight
(src/tower-balance/src/load/weight.rs).

The endpoint table (an IndexMap in the source) is modelled as an association
list in insertion order, with replace-in-place insert and swap-remove.
Endpoint services are opaque values of a type parameter EP; the outcome of
polling an endpoint is supplied by a behaviour oracle, and the RNG used by
the two-choice sampling is supplied as an oracle as well.  A Rust panic
(an expect or unreachable branch) is modelled as the result none.
-/

namespace Tower

universe u v

variable {α : Type u}
variable {K : Type} {EP : Type} [DecidableEq K]

/-- Result of polling one endpoint for readiness: ready with a load value,
not ready, or a readiness error.  Loads are the totally ordered metric. -/
inductive PollRes : Type where
  | ready (load : Nat)
  | notReady
  | fail
  deriving DecidableEq

/-- One discovery event, as in tower-discover Change. -/
inductive DChange (K EP : Type) : Type where
  | insert (k : K) (svc : EP)
  | remove (k : K)
  deriving DecidableEq

/-- IndexMap swap_remove_index i: remove position i, moving the last element
into slot i.  Only called with i in bounds. -/
def swapRemoveAt (l : List α) (i : Nat) : List α :=
  if i < l.length then
    match l.getLast? with
    | some last => (l.set i last).dropLast
    | none => l
  else l

/-- IndexMap insert: if the key is present, replace the value in place
(keeping the position); otherwise append at the end. -/
def tableInsert : List (K × EP) → K → EP → List (K × EP)
  | [], k, e => [(k, e)]
  | (k', e') :: rest, k, e =>
    if k' = k then (k, e) :: rest else (k', e') :: tableInsert rest k e

/-- Position of a key in the table, if present. -/
def findKeyIdx : List (K × EP) → K → Option Nat
  | [], _ => none
  | (k', _) :: rest, k =>
    if k' = k then some 0 else (findKeyIdx rest k).map (· + 1)

/-- IndexMap swap_remove_full keyed by k: the removed position together with
the shrunken table. -/
def swapRemoveFull (l : List (K × EP)) (k : K) : Option (Nat × List (K × EP)) :=
  match findKeyIdx l k with
  | none => none
  | some i => some (i, swapRemoveAt l i)

/-- P2CBalance::repair_index from src/tower-balance/src/lib.rs. -/
def repairIndex (origIdx rmIdx origSz : Nat) : Option Nat :=
  if origIdx = rmIdx then none
  else if origIdx = origSz - 1 then some rmIdx
  else some origIdx

/-! Basic lemmas about the table operations. -/

theorem length_swapRemoveAt (l : List α) (i : Nat) (h : i < l.length) :
    (swapRemoveAt l i).length = l.length - 1 := by
  have hne : l ≠ [] := by
    intro hl
    simp [hl] at h
  rw [swapRemoveAt, if_pos h]
  rcases hlast : l.getLast? with _ | last
  · exact absurd (List.getLast?_eq_none_iff.mp hlast) hne
  · simp [List.length_dropLast, List.length_set]

theorem getElem?_dropLast (l : List α) (j : Nat) (hj : j < l.length - 1) :
    l.dropLast[j]? = l[j]? := by
  have hjd : j < l.dropLast.length := by
    simpa [List.length_dropLast] using hj
  have hjl : j < l.length := lt_of_lt_of_le hj (Nat.sub_le _ _)
  rw [List.getElem?_eq_getElem hjd, List.getElem?_eq_getElem hjl]
  exact congrArg some (List.getElem_dropLast l j hjd)

theorem getElem?_swapRemoveAt (l : List α) (i j : Nat) (hi : i < l.length)
    (hj : j < l.length - 1) :
    (swapRemoveAt l i)[j]? = if j = i then l[l.length - 1]? else l[j]? := by
  have hne : l ≠ [] := by
    intro hl
    simp [hl] at hi
  have hlast : l.getLast? = some (l.getLast hne) := List.getLast?_eq_getLast l hne
  rw [swapRemoveAt, if_pos hi, hlast]
  have hset : (l.set i (l.getLast hne)).length = l.length := List.length_set l i _
  have hj' : j < (l.set i (l.getLast hne)).length - 1 := by rw [hset]; exact hj
  rw [getElem?_dropLast _ j hj']
  have hjl : j < l.length := lt_of_lt_of_le hj (Nat.sub_le _ _)
  by_cases hcase : j = i
  · subst hcase
    rw [if_pos rfl]
    rw [List.getElem?_set_self (by omega)]
    have hlt : l.length - 1 < l.length := by omega
    rw [List.getElem?_eq_getElem hlt]
    exact congrArg some (List.getLast_eq_getElem l hne)
  · rw [if_neg hcase, List.getElem?_set_ne (fun h => hcase h.symm)]

theorem findKeyIdx_lt_length (l : List (K × EP)) (k : K) (i : Nat)
    (h : findKeyIdx l k = some i) : i < l.length := by
  induction l generalizing i with
  | nil => simp [findKeyIdx] at h
  | cons hd tl ih =>
    rw [findKeyIdx] at h
    by_cases hk : hd.1 = k
    · rw [if_pos hk] at h
      simp only [Option.some.injEq] at h
      subst h
      simp
    · rw [if_neg hk] at h
      rcases htl : findKeyIdx tl k with _ | j
      · rw [htl] at h; simp at h
      · rw [htl] at h
        have hji : j + 1 = i := by simpa using h
        have := ih j htl
        simp only [List.length_cons]
        omega

theorem repairIndex_lt (i rm n : Nat) (hi : i < n) (hrm : rm < n) (j : Nat)
    (h : repairIndex i rm n = some j) : j < n - 1 := by
  rw [repairIndex] at h
  by_cases h1 : i = rm
  · simp [h1] at h
  · rw [if_neg h1] at h
    by_cases h2 : i = n - 1
    · rw [if_pos h2] at h
      simp only [Option.some.injEq] at h
      omega
    · rw [if_neg h2] at h
      simp only [Option.some.injEq] at h
      omega

theorem length_le_tableInsert (l : List (K × EP)) (k : K) (e : EP) :
    l.length ≤ (tableInsert l k e).length := by
  induction l with
  | nil => simp [tableInsert]
  | cons hd tl ih =>
    rw [tableInsert]
    by_cases hk : hd.1 = k
    · rcases hd with ⟨k', e'⟩
      simp only at hk
      simp [hk]
    · rcases hd with ⟨k', e'⟩
      simp only at hk
      rw [if_neg hk]
      simp only [List.length_cons, Nat.add_le_add_iff_right]
      exact ih

/-- C2: the index-repair rule yields None when the held index was removed,
the removed slot when the held index was the last element, and the held index
unchanged otherwise; and whenever it yields some j, slot j of the shrunken
table holds the endpoint that the held index referred to before the removal. -/
theorem repair_index_correct (i rm n : Nat) (l : List (K × EP))
    (hlen : l.length = n) (hi : i < n) (hrm : rm < n) :
    (repairIndex i rm n =
      if i = rm then none else if i = n - 1 then some rm else some i)
    ∧ (∀ j, repairIndex i rm n = some j → (swapRemoveAt l rm)[j]? = l[i]?) := by
  subst hlen
  refine ⟨rfl, ?_⟩
  intro j hj
  have hjlt : j < l.length - 1 := repairIndex_lt i rm l.length hi hrm j hj
  rw [getElem?_swapRemoveAt l rm j hrm hjlt]
  rw [repairIndex] at hj
  by_cases h1 : i = rm
  · simp [h1] at hj
  · rw [if_neg h1] at hj
    by_cases h2 : i = l.length - 1
    · rw [if_pos h2] at hj
      simp only [Option.some.injEq] at hj
      subst hj
      rw [if_pos rfl, h2]
    · rw [if_neg h2] at hj
      simp only [Option.some.injEq] at hj
      subst hj
      rw [if_neg h1]

/-- C2 witness: the repair rule applied at a concrete removal.  Table
[(10, a), (11, b), (12, c)], held index 2, removed position 1, size 3:
the repaired index 1 refers to the endpoint previously at position 2. -/
theorem repair_index_correct_witness :
    (repairIndex 2 1 3 =
      if 2 = 1 then none else if 2 = 3 - 1 then some 1 else some 2)
    ∧ (∀ j, repairIndex 2 1 3 = some j →
        (swapRemoveAt [((10 : Nat), PollRes.ready 1), (11, PollRes.ready 2),
          (12, PollRes.ready 3)] 1)[j]? =
        [((10 : Nat), PollRes.ready 1), (11, PollRes.ready 2),
          (12, PollRes.ready 3)][2]?) :=
  repair_index_correct 2 1 3
    [((10 : Nat), PollRes.ready 1), (11, PollRes.ready 2), (12, PollRes.ready 3)]
    (by decide) (by decide) (by decide)

/-! ## The P2C balancer state machine (src/tower-balance/src/lib.rs) -/

/-- State of P2CBalance: the endpoint table and the held ready index.
The discovery stream and the RNG are supplied per call as oracles. -/
structure Balancer (K EP : Type) : Type where
  endpoints : List (K × EP)
  readyIndex : Option Nat
  deriving DecidableEq

/-- Result of P2CBalance::poll_ready: ready, not ready, or a discovery
stream failure (error::Balance). -/
inductive PollReadyRes : Type where
  | ready
  | notReady
  | errDiscover
  deriving DecidableEq

/-- One iteration of the poll_discover drain loop: apply a single discovery
change to the balancer state, repairing the held index on removal. -/
def applyChange (st : Balancer K EP) (c : DChange K EP) : Balancer K EP :=
  match c with
  | DChange.insert k svc => { st with endpoints := tableInsert st.endpoints k svc }
  | DChange.remove k =>
    let origSz := st.endpoints.length
    match swapRemoveFull st.endpoints k with
    | none => st
    | some (rmIdx, eps) =>
      { endpoints := eps
        readyIndex :=
          match st.readyIndex with
          | some i => repairIndex i rmIdx origSz
          | none => none }

/-- P2CBalance::poll_discover: drain the pending discovery changes in stream
order.  (A stream failure after the drain is handled by pollReady.) -/
def pollDiscover (st : Balancer K EP) (events : List (DChange K EP)) : Balancer K EP :=
  events.foldl applyChange st

/-- P2CBalance::poll_endpoint_index_load: poll the endpoint at a position and
report its readiness and load.  The behaviour oracle beh gives the outcome of
the poll at logical time t.  none models the expect on an invalid index. -/
def pollEndpointIndexLoad (beh : Nat → EP → PollRes) (t : Nat)
    (l : List (K × EP)) (i : Nat) : Option PollRes :=
  match l[i]? with
  | some p => some (beh t p.2)
  | none => none

/-- One of the two sampled polls inside P2CBalance::poll_ready_index: poll
the endpoint at position idx; on a readiness error evict it and repair the
other held sample index against the removal (the expect that the two sampled
indices are distinct is modelled by none).  Returns the load when ready
(none stands for Async::NotReady), the updated state, and the possibly
repaired other index. -/
def pollSample (beh : Nat → EP → PollRes) (t len : Nat) (st : Balancer K EP)
    (idx other : Nat) : Option (Option Nat × Balancer K EP × Nat) :=
  match pollEndpointIndexLoad beh t st.endpoints idx with
  | none => none
  | some (PollRes.ready l) => some (some l, st, other)
  | some PollRes.notReady => some (none, st, other)
  | some PollRes.fail =>
    match repairIndex other idx len with
    | none => none
    | some o1 =>
      some (none, { st with endpoints := swapRemoveAt st.endpoints idx }, o1)

/-- P2CBalance::poll_ready_index, one selection round.  r is the round number
and t the logical poll time; rng r n yields the two sampled indices for a
table of size n.  Returns the new state, the new time, and the chosen index
if one was found; none models a panic (invalid index, or the expect that the
two sampled indices are distinct). -/
def pollReadyIndex (beh : Nat → EP → PollRes) (rng : Nat → Nat → Nat × Nat)
    (r t : Nat) (st : Balancer K EP) : Option (Balancer K EP × Nat × Option Nat) :=
  let len := st.endpoints.length
  if len = 0 then some (st, t, none)
  else if len = 1 then
    match pollEndpointIndexLoad beh t st.endpoints 0 with
    | none => none
    | some (PollRes.ready _) => some ({ st with readyIndex := some 0 }, t + 1, some 0)
    | some PollRes.notReady => some (st, t + 1, none)
    | some PollRes.fail =>
      some ({ st with endpoints := swapRemoveAt st.endpoints 0 }, t + 1, none)
  else
    let aidx := (rng r len).1
    let bidx := (rng r len).2
    match pollSample beh t len st aidx bidx with
    | none => none
    | some (aload, st1, bidx1) =>
      match pollSample beh (t + 1) len st1 bidx1 aidx with
      | none => none
      | some (bload, st2, aidx2) =>
        let chosen : Option Nat :=
          match aload, bload with
          | some la, some lb => if la ≤ lb then some aidx2 else some bidx1
          | some _, none => some aidx2
          | none, some _ => some bidx1
          | none, none => none
        some (st2, t + 2, chosen)

/-- The bounded retry loop of P2CBalance::poll_ready: run up to fuel
selection rounds; on the first round that yields an index, record it in
ready_index and report ready. -/
def selectLoop (beh : Nat → EP → PollRes) (rng : Nat → Nat → Nat × Nat) :
    Nat → Nat → Nat → Balancer K EP → Option (Balancer K EP × PollReadyRes)
  | 0, _, _, st => some (st, PollReadyRes.notReady)
  | fuel + 1, r, t, st =>
    match pollReadyIndex beh rng r t st with
    | none => none
    | some (st1, _, some idx) =>
      some ({ st1 with readyIndex := some idx }, PollReadyRes.ready)
    | some (st1, t1, none) => selectLoop beh rng fuel (r + 1) t1 st1

/-- The selection phase of P2CBalance::poll_ready: with an empty table report
not ready, otherwise attempt max(1, n / 2) selection rounds. -/
def selectPhase (beh : Nat → EP → PollRes) (rng : Nat → Nat → Nat × Nat)
    (t : Nat) (st : Balancer K EP) : Option (Balancer K EP × PollReadyRes) :=
  match st.endpoints.length with
  | 0 => some (st, PollReadyRes.notReady)
  | n + 1 => selectLoop beh rng (max 1 ((n + 1) / 2)) 0 t st

/-- P2CBalance::poll_ready: drain discovery (events, then the stream either
yields NotReady or fails), re-validate the held ready index, then select.
none models a panic. -/
def pollReady (st : Balancer K EP) (events : List (DChange K EP))
    (discoverFails : Bool) (beh : Nat → EP → PollRes)
    (rng : Nat → Nat → Nat × Nat) : Option (Balancer K EP × PollReadyRes) :=
  let std := pollDiscover st events
  if discoverFails then some (std, PollReadyRes.errDiscover)
  else
    match std.readyIndex with
    | some i =>
      match pollEndpointIndexLoad beh 0 std.endpoints i with
      | none => none
      | some (PollRes.ready _) => some (std, PollReadyRes.ready)
      | some PollRes.notReady => selectPhase beh rng 1 { std with readyIndex := none }
      | some PollRes.fail =>
        selectPhase beh rng 1
          { endpoints := swapRemoveAt std.endpoints i, readyIndex := none }
    | none => selectPhase beh rng 0 std

/-- P2CBalance::call: take the ready index (leaving none) and forward the
request to that endpoint, returning the position and the endpoint the request
went to.  none models the expect panics (not ready / invalid ready index). -/
def Balancer.call (st : Balancer K EP) : Option ((Nat × EP) × Balancer K EP) :=
  match st.readyIndex with
  | none => none
  | some i =>
    match st.endpoints[i]? with
    | none => none
    | some p => some ((i, p.2), { st with readyIndex := none })

/-- One observable step of the balancer: a poll_ready call (with arbitrary
discovery events, stream outcome, endpoint behaviours and RNG draws) that did
not panic, or a call (dispatch) that did not panic. -/
inductive BStep : Balancer K EP → Balancer K EP → Prop where
  | poll (st st' : Balancer K EP) (events : List (DChange K EP))
      (discoverFails : Bool) (beh : Nat → EP → PollRes)
      (rng : Nat → Nat → Nat × Nat) (res : PollReadyRes)
      (h : pollReady st events discoverFails beh rng = some (st', res)) :
      BStep st st'
  | dispatch (st st' : Balancer K EP) (i : Nat) (e : EP)
      (h : Balancer.call st = some ((i, e), st')) :
      BStep st st'

/-- States reachable from the freshly constructed balancer (empty table, no
held index) by any sequence of poll_ready and dispatch calls. -/
inductive BReachable : Balancer K EP → Prop where
  | init : BReachable ⟨[], none⟩
  | step {st st' : Balancer K EP} (hr : BReachable st) (hs : BStep st st') :
      BReachable st'

/-! ## Ready-index validity (C1) -/

/-- The ready-index invariant: any held index is a valid table position. -/
def Inv (st : Balancer K EP) : Prop :=
  ∀ i, st.readyIndex = some i → i < st.endpoints.length

theorem getElem?_some_lt {l : List α} {i : Nat} {a : α} (h : l[i]? = some a) :
    i < l.length := by
  by_contra hlt
  rw [List.getElem?_eq_none (Nat.le_of_not_lt hlt)] at h
  exact Option.noConfusion h

theorem pollEndpointIndexLoad_lt {beh : Nat → EP → PollRes} {t : Nat}
    {l : List (K × EP)} {i : Nat} {r : PollRes}
    (h : pollEndpointIndexLoad beh t l i = some r) : i < l.length := by
  rw [pollEndpointIndexLoad] at h
  rcases hg : l[i]? with _ | p
  · rw [hg] at h
    exact Option.noConfusion h
  · exact getElem?_some_lt hg

theorem swapRemoveFull_eq {l : List (K × EP)} {k : K} {i : Nat} {l1 : List (K × EP)}
    (h : swapRemoveFull l k = some (i, l1)) :
    findKeyIdx l k = some i ∧ l1 = swapRemoveAt l i := by
  rw [swapRemoveFull] at h
  rcases hf : findKeyIdx l k with _ | j
  · simp only [hf] at h
    exact Option.noConfusion h
  · simp only [hf, Option.some.injEq, Prod.mk.injEq] at h
    obtain ⟨h1, h2⟩ := h
    subst h1
    exact ⟨rfl, h2.symm⟩

theorem applyChange_inv {st : Balancer K EP} {c : DChange K EP} (hInv : Inv st) :
    Inv (applyChange st c) := by
  rcases c with ⟨k, svc⟩ | k
  · intro i hi
    simp only [applyChange] at hi ⊢
    exact lt_of_lt_of_le (hInv i hi) (length_le_tableInsert _ _ _)
  · intro i hi
    simp only [applyChange] at hi ⊢
    rcases hf : swapRemoveFull st.endpoints k with _ | p
    · simp only [hf] at hi ⊢
      exact hInv i hi
    · rcases p with ⟨rmIdx, eps⟩
      obtain ⟨hfind, heps⟩ := swapRemoveFull_eq hf
      have hrm : rmIdx < st.endpoints.length := findKeyIdx_lt_length _ _ _ hfind
      simp only [hf] at hi ⊢
      rcases hri : st.readyIndex with _ | j
      · simp only [hri] at hi
        exact Option.noConfusion hi
      · simp only [hri] at hi
        have hj : j < st.endpoints.length := hInv j hri
        have hbound := repairIndex_lt j rmIdx st.endpoints.length hj hrm i hi
        rw [heps, length_swapRemoveAt _ _ hrm]
        exact hbound

theorem pollDiscover_inv {st : Balancer K EP} {events : List (DChange K EP)}
    (hInv : Inv st) : Inv (pollDiscover st events) := by
  induction events generalizing st with
  | nil => exact hInv
  | cons c rest ih =>
    simp only [pollDiscover, List.foldl_cons]
    exact ih (applyChange_inv hInv)

theorem pollSample_some_load {beh : Nat → EP → PollRes} {t len : Nat}
    {st st1 : Balancer K EP} {idx other other1 l : Nat}
    (h : pollSample beh t len st idx other = some (some l, st1, other1)) :
    st1 = st ∧ other1 = other ∧ idx < st.endpoints.length := by
  rw [pollSample] at h
  rcases hp : pollEndpointIndexLoad beh t st.endpoints idx with _ | res
  · simp only [hp] at h
    exact Option.noConfusion h
  · have hidx : idx < st.endpoints.length := pollEndpointIndexLoad_lt hp
    simp only [hp] at h
    cases res with
    | ready l0 =>
      simp only [Option.some.injEq, Prod.mk.injEq] at h
      exact ⟨h.2.1.symm, h.2.2.symm, hidx⟩
    | notReady => simp at h
    | fail =>
      rcases hr : repairIndex other idx len with _ | o1
      · simp only [hr] at h
        exact Option.noConfusion h
      · simp only [hr] at h
        simp at h

theorem pollSample_none_load {beh : Nat → EP → PollRes} {t len : Nat}
    {st st1 : Balancer K EP} {idx other other1 : Nat}
    (h : pollSample beh t len st idx other = some (none, st1, other1)) :
    st1.readyIndex = st.readyIndex ∧
    ((st1 = st ∧ other1 = other) ∨
      (idx < st.endpoints.length ∧
        st1.endpoints = swapRemoveAt st.endpoints idx ∧
        repairIndex other idx len = some other1)) := by
  rw [pollSample] at h
  rcases hp : pollEndpointIndexLoad beh t st.endpoints idx with _ | res
  · simp only [hp] at h
    exact Option.noConfusion h
  · have hidx : idx < st.endpoints.length := pollEndpointIndexLoad_lt hp
    simp only [hp] at h
    cases res with
    | ready l0 => simp at h
    | notReady =>
      simp only [Option.some.injEq, Prod.mk.injEq] at h
      obtain ⟨-, h2, h3⟩ := h
      subst h2
      exact ⟨rfl, Or.inl ⟨rfl, h3.symm⟩⟩
    | fail =>
      rcases hr : repairIndex other idx len with _ | o1
      · simp only [hr] at h
        exact Option.noConfusion h
      · simp only [hr, Option.some.injEq, Prod.mk.injEq] at h
        obtain ⟨-, h2, h3⟩ := h
        subst h2
        subst h3
        exact ⟨rfl, Or.inr ⟨hidx, rfl, rfl⟩⟩

theorem pollReadyIndex_chosen_lt {beh : Nat → EP → PollRes}
    {rng : Nat → Nat → Nat × Nat} {r t : Nat} {st st1 : Balancer K EP}
    {t1 idx : Nat}
    (h : pollReadyIndex beh rng r t st = some (st1, t1, some idx)) :
    idx < st1.endpoints.length := by
  simp only [pollReadyIndex] at h
  by_cases h0 : st.endpoints.length = 0
  · simp [h0] at h
  · rw [if_neg h0] at h
    by_cases h1 : st.endpoints.length = 1
    · rw [if_pos h1] at h
      rcases hp : pollEndpointIndexLoad beh t st.endpoints 0 with _ | res
      · simp only [hp] at h
        exact Option.noConfusion h
      · simp only [hp] at h
        cases res with
        | ready l0 =>
          simp only [Option.some.injEq, Prod.mk.injEq] at h
          obtain ⟨hst, -, hidx⟩ := h
          subst hst
          subst hidx
          show (0 : Nat) < st.endpoints.length
          omega
        | notReady => simp at h
        | fail => simp at h
    · rw [if_neg h1] at h
      rcases hsa : pollSample beh t st.endpoints.length st
          (rng r st.endpoints.length).1 (rng r st.endpoints.length).2 with _ | pa
      · simp only [hsa] at h
        exact Option.noConfusion h
      · rcases pa with ⟨aload, stA, bidx1⟩
        simp only [hsa] at h
        rcases hsb : pollSample beh (t + 1) st.endpoints.length stA bidx1
            (rng r st.endpoints.length).1 with _ | pb
        · simp only [hsb] at h
          exact Option.noConfusion h
        · rcases pb with ⟨bload, stB, aidx2⟩
          simp only [hsb] at h
          rcases aload with _ | la
          · rcases bload with _ | lb
            · simp at h
            · simp only [Option.some.injEq, Prod.mk.injEq] at h
              obtain ⟨hst, -, hidx⟩ := h
              subst hst
              subst hidx
              obtain ⟨hstB, -, hblt⟩ := pollSample_some_load hsb
              rw [hstB]
              exact hblt
          · obtain ⟨hstA, hbidx, halt⟩ := pollSample_some_load hsa
            rcases bload with _ | lb
            · simp only [Option.some.injEq, Prod.mk.injEq] at h
              obtain ⟨hst, -, hidx⟩ := h
              subst hst
              subst hidx
              obtain ⟨-, hcase⟩ := pollSample_none_load hsb
              rcases hcase with ⟨hstB, haidx2⟩ | ⟨hblt, hBeps, hrep⟩
              · rw [hstB, hstA, haidx2]
                exact halt
              · have hlenA : stA.endpoints.length = st.endpoints.length := by
                  rw [hstA]
                have hbl : bidx1 < st.endpoints.length := by
                  rw [← hlenA]; exact hblt
                have hfin := repairIndex_lt (rng r st.endpoints.length).1 bidx1
                  st.endpoints.length halt hbl aidx2 hrep
                rw [hBeps, length_swapRemoveAt _ _ hblt, hlenA]
                exact hfin
            · obtain ⟨hstB, haidx2, hblt⟩ := pollSample_some_load hsb
              simp only [Option.some.injEq, Prod.mk.injEq] at h
              obtain ⟨hst, -, hidx⟩ := h
              subst hst
              by_cases hle : la ≤ lb
              · rw [if_pos hle] at hidx
                simp only [Option.some.injEq] at hidx
                rw [← hidx, haidx2, hstB, hstA]
                exact halt
              · rw [if_neg hle] at hidx
                simp only [Option.some.injEq] at hidx
                rw [← hidx, hstB]
                exact hblt

theorem pollReadyIndex_none_ridx {beh : Nat → EP → PollRes}
    {rng : Nat → Nat → Nat × Nat} {r t : Nat} {st st1 : Balancer K EP} {t1 : Nat}
    (h : pollReadyIndex beh rng r t st = some (st1, t1, none)) :
    st1.readyIndex = st.readyIndex := by
  simp only [pollReadyIndex] at h
  by_cases h0 : st.endpoints.length = 0
  · rw [if_pos h0] at h
    simp only [Option.some.injEq, Prod.mk.injEq] at h
    rw [← h.1]
  · rw [if_neg h0] at h
    by_cases h1 : st.endpoints.length = 1
    · rw [if_pos h1] at h
      rcases hp : pollEndpointIndexLoad beh t st.endpoints 0 with _ | res
      · simp only [hp] at h
        exact Option.noConfusion h
      · simp only [hp] at h
        cases res with
        | ready l0 => simp at h
        | notReady =>
          simp only [Option.some.injEq, Prod.mk.injEq] at h
          rw [← h.1]
        | fail =>
          simp only [Option.some.injEq, Prod.mk.injEq] at h
          rw [← h.1]
    · rw [if_neg h1] at h
      rcases hsa : pollSample beh t st.endpoints.length st
          (rng r st.endpoints.length).1 (rng r st.endpoints.length).2 with _ | pa
      · simp only [hsa] at h
        exact Option.noConfusion h
      · rcases pa with ⟨aload, stA, bidx1⟩
        simp only [hsa] at h
        rcases hsb : pollSample beh (t + 1) st.endpoints.length stA bidx1
            (rng r st.endpoints.length).1 with _ | pb
        · simp only [hsb] at h
          exact Option.noConfusion h
        · rcases pb with ⟨bload, stB, aidx2⟩
          simp only [hsb] at h
          rcases aload with _ | la
          · rcases bload with _ | lb
            · simp only [Option.some.injEq, Prod.mk.injEq] at h
              obtain ⟨hst, -, -⟩ := h
              subst hst
              obtain ⟨hA, -⟩ := pollSample_none_load hsa
              obtain ⟨hB, -⟩ := pollSample_none_load hsb
              rw [hB, hA]
            · simp at h
          · rcases bload with _ | lb
            · simp at h
            · simp only [Option.some.injEq, Prod.mk.injEq] at h
              obtain ⟨-, -, hc⟩ := h
              by_cases hle : la ≤ lb
              · rw [if_pos hle] at hc
                exact Option.noConfusion hc
              · rw [if_neg hle] at hc
                exact Option.noConfusion hc

theorem selectLoop_inv {beh : Nat → EP → PollRes} {rng : Nat → Nat → Nat × Nat}
    {fuel r t : Nat} {st st1 : Balancer K EP} {res : PollReadyRes}
    (hnone : st.readyIndex = none)
    (h : selectLoop beh rng fuel r t st = some (st1, res)) : Inv st1 := by
  induction fuel generalizing r t st with
  | zero =>
    simp only [selectLoop, Option.some.injEq, Prod.mk.injEq] at h
    intro i hi
    rw [← h.1, hnone] at hi
    exact Option.noConfusion hi
  | succ fuel ih =>
    simp only [selectLoop] at h
    rcases hp : pollReadyIndex beh rng r t st with _ | p
    · simp only [hp] at h
      exact Option.noConfusion h
    · rcases p with ⟨st2, t2, c⟩
      simp only [hp] at h
      rcases c with _ | idx
      · exact ih (by rw [pollReadyIndex_none_ridx hp, hnone]) h
      · simp only [Option.some.injEq, Prod.mk.injEq] at h
        obtain ⟨h1, -⟩ := h
        intro i hi
        rw [← h1] at hi
        simp only [Option.some.injEq] at hi
        have hlt := pollReadyIndex_chosen_lt hp
        rw [← h1, ← hi]
        exact hlt

theorem selectPhase_inv {beh : Nat → EP → PollRes} {rng : Nat → Nat → Nat × Nat}
    {t : Nat} {st st1 : Balancer K EP} {res : PollReadyRes}
    (hnone : st.readyIndex = none)
    (h : selectPhase beh rng t st = some (st1, res)) : Inv st1 := by
  rw [selectPhase] at h
  rcases hl : st.endpoints.length with _ | n
  · simp only [hl, Option.some.injEq, Prod.mk.injEq] at h
    intro i hi
    rw [← h.1, hnone] at hi
    exact Option.noConfusion hi
  · simp only [hl] at h
    exact selectLoop_inv hnone h

theorem pollReady_inv {st st1 : Balancer K EP} {events : List (DChange K EP)}
    {discoverFails : Bool} {beh : Nat → EP → PollRes}
    {rng : Nat → Nat → Nat × Nat} {res : PollReadyRes} (hInv : Inv st)
    (h : pollReady st events discoverFails beh rng = some (st1, res)) : Inv st1 := by
  have hd : Inv (pollDiscover st events) := pollDiscover_inv hInv
  simp only [pollReady] at h
  cases discoverFails with
  | true =>
    rw [if_pos rfl] at h
    simp only [Option.some.injEq, Prod.mk.injEq] at h
    rw [← h.1]
    exact hd
  | false =>
    simp only [Bool.false_eq_true, if_false] at h
    rcases hri : (pollDiscover st events).readyIndex with _ | i
    · simp only [hri] at h
      exact selectPhase_inv hri h
    · simp only [hri] at h
      rcases hp : pollEndpointIndexLoad beh 0 (pollDiscover st events).endpoints i
          with _ | res0
      · simp only [hp] at h
        exact Option.noConfusion h
      · simp only [hp] at h
        cases res0 with
        | ready l0 =>
          simp only [Option.some.injEq, Prod.mk.injEq] at h
          rw [← h.1]
          exact hd
        | notReady => exact selectPhase_inv rfl h
        | fail => exact selectPhase_inv rfl h

theorem reachable_inv {st : Balancer K EP} (h : BReachable st) : Inv st := by
  induction h with
  | init =>
    intro i hi
    exact Option.noConfusion hi
  | step hr hs ih =>
    rcases hs with ⟨ev, df, beh, rng, res, hp⟩ | ⟨i, e, hc⟩
    · exact pollReady_inv ih hp
    · intro j hj
      rw [Balancer.call] at hc
      rename_i st st'
      rcases hri : st.readyIndex with _ | i0
      · simp only [hri] at hc
        exact Option.noConfusion hc
      · simp only [hri] at hc
        rcases hg : st.endpoints[i0]? with _ | p
        · simp only [hg] at hc
          exact Option.noConfusion hc
        · simp only [hg, Option.some.injEq, Prod.mk.injEq] at hc
          rw [← hc.2] at hj
          exact Option.noConfusion hj

/-- C1: in every state of P2CBalance reachable by any sequence of poll_ready
calls, dispatch calls and discovery Insert/Remove events, a held ready_index
Some(i) satisfies i < endpoints.len(). -/
theorem ready_index_validity {st : Balancer K EP} (h : BReachable st) (i : Nat)
    (hi : st.readyIndex = some i) : i < st.endpoints.length :=
  reachable_inv h i hi

/-- C1 witness: a state reached by one poll_ready call that inserted one
endpoint and selected it; its held index 0 is below the table length 1. -/
theorem ready_index_validity_witness :
    (0 : Nat) <
      (Balancer.mk [((0 : Nat), PollRes.ready 5)] (some 0)).endpoints.length := by
  have hstep : BStep (⟨[], none⟩ : Balancer Nat PollRes)
      ⟨[(0, PollRes.ready 5)], some 0⟩ :=
    BStep.poll _ _ [DChange.insert 0 (PollRes.ready 5)] false (fun _ e => e)
      (fun _ _ => (0, 1)) PollReadyRes.ready rfl
  exact ready_index_validity (BReachable.step BReachable.init hstep) 0 rfl

/-! ## Re-validation, error policy, dispatch and the P2C decision (C3-C6) -/

/-- C3: when poll_ready begins (after the discovery drain) with
ready_index = Some(i), it re-polls endpoint i before returning: Ready keeps
the index and returns Ready; NotReady clears the index and falls through to
selection; Fail evicts endpoint i (swap-remove), clears the index and falls
through to selection. -/
theorem revalidate_held_choice (st : Balancer K EP) (events : List (DChange K EP))
    (beh : Nat → EP → PollRes) (rng : Nat → Nat → Nat × Nat) (i : Nat)
    (k : K) (e : EP)
    (hidx : (pollDiscover st events).readyIndex = some i)
    (hget : (pollDiscover st events).endpoints[i]? = some (k, e)) :
    (∀ l, beh 0 e = PollRes.ready l →
      pollReady st events false beh rng =
        some (pollDiscover st events, PollReadyRes.ready))
    ∧ (beh 0 e = PollRes.notReady →
      pollReady st events false beh rng =
        selectPhase beh rng 1 { pollDiscover st events with readyIndex := none })
    ∧ (beh 0 e = PollRes.fail →
      pollReady st events false beh rng =
        selectPhase beh rng 1
          ⟨swapRemoveAt (pollDiscover st events).endpoints i, none⟩) := by
  have hload : pollEndpointIndexLoad beh 0 (pollDiscover st events).endpoints i
      = some (beh 0 e) := by
    rw [pollEndpointIndexLoad, hget]
  refine ⟨?_, ?_, ?_⟩
  · intro l hl
    simp only [pollReady, Bool.false_eq_true, if_false, hidx, hload, hl]
  · intro hl
    simp only [pollReady, Bool.false_eq_true, if_false, hidx, hload, hl]
  · intro hl
    simp only [pollReady, Bool.false_eq_true, if_false, hidx, hload, hl]

/-- C3 witness: the three re-validation outcomes at a concrete one-endpoint
state holding index 0. -/
theorem revalidate_held_choice_witness :
    (∀ l, (fun _ (e : PollRes) => e) 0 (PollRes.ready 3) = PollRes.ready l →
      pollReady (⟨[((0 : Nat), PollRes.ready 3)], some 0⟩ : Balancer Nat PollRes)
          [] false (fun _ e => e) (fun _ _ => (0, 1)) =
        some (pollDiscover ⟨[(0, PollRes.ready 3)], some 0⟩ [], PollReadyRes.ready))
    ∧ ((fun _ (e : PollRes) => e) 0 (PollRes.ready 3) = PollRes.notReady →
      pollReady (⟨[((0 : Nat), PollRes.ready 3)], some 0⟩ : Balancer Nat PollRes)
          [] false (fun _ e => e) (fun _ _ => (0, 1)) =
        selectPhase (fun _ e => e) (fun _ _ => (0, 1)) 1
          { pollDiscover (⟨[((0 : Nat), PollRes.ready 3)], some 0⟩ : Balancer Nat PollRes) [] with
              readyIndex := none })
    ∧ ((fun _ (e : PollRes) => e) 0 (PollRes.ready 3) = PollRes.fail →
      pollReady (⟨[((0 : Nat), PollRes.ready 3)], some 0⟩ : Balancer Nat PollRes)
          [] false (fun _ e => e) (fun _ _ => (0, 1)) =
        selectPhase (fun _ e => e) (fun _ _ => (0, 1)) 1
          ⟨swapRemoveAt (pollDiscover
              (⟨[((0 : Nat), PollRes.ready 3)], some 0⟩ : Balancer Nat PollRes) []).endpoints 0,
            none⟩) :=
  revalidate_held_choice ⟨[(0, PollRes.ready 3)], some 0⟩ [] (fun _ e => e)
    (fun _ _ => (0, 1)) 0 0 (PollRes.ready 3) rfl rfl

theorem pollReadyIndex_chosen_spec {beh : Nat → EP → PollRes}
    {rng : Nat → Nat → Nat × Nat} {r t : Nat} {st st1 : Balancer K EP}
    {t1 : Nat} {c : Option Nat}
    (h : pollReadyIndex beh rng r t st = some (st1, t1, c)) :
    c ≠ none → ∃ idx, c = some idx := by
  intro hne
  rcases c with _ | idx
  · exact absurd rfl hne
  · exact ⟨idx, rfl⟩

theorem selectLoop_ne_err {beh : Nat → EP → PollRes} {rng : Nat → Nat → Nat × Nat}
    {fuel r t : Nat} {st st1 : Balancer K EP} {res : PollReadyRes}
    (h : selectLoop beh rng fuel r t st = some (st1, res)) :
    res ≠ PollReadyRes.errDiscover := by
  induction fuel generalizing r t st with
  | zero =>
    simp only [selectLoop, Option.some.injEq, Prod.mk.injEq] at h
    rw [← h.2]
    intro hc
    exact PollReadyRes.noConfusion hc
  | succ fuel ih =>
    simp only [selectLoop] at h
    rcases hp : pollReadyIndex beh rng r t st with _ | p
    · simp only [hp] at h
      exact Option.noConfusion h
    · rcases p with ⟨st2, t2, c⟩
      simp only [hp] at h
      rcases c with _ | idx
      · exact ih h
      · simp only [Option.some.injEq, Prod.mk.injEq] at h
        rw [← h.2]
        intro hc
        exact PollReadyRes.noConfusion hc

theorem selectPhase_ne_err {beh : Nat → EP → PollRes} {rng : Nat → Nat → Nat × Nat}
    {t : Nat} {st st1 : Balancer K EP} {res : PollReadyRes}
    (h : selectPhase beh rng t st = some (st1, res)) :
    res ≠ PollReadyRes.errDiscover := by
  rw [selectPhase] at h
  rcases hl : st.endpoints.length with _ | n
  · simp only [hl, Option.some.injEq, Prod.mk.injEq] at h
    rw [← h.2]
    intro hc
    exact PollReadyRes.noConfusion hc
  · simp only [hl] at h
    exact selectLoop_ne_err h

/-- C4: poll_ready surfaces a failure exactly when the discovery stream
itself failed; an endpoint whose own poll_ready fails is swap-removed and
polling continues without surfacing the error (shown in general by the
equivalence, and concretely by the eviction of a failing sole endpoint). -/
theorem poll_ready_error_policy :
    (∀ (st st1 : Balancer K EP) (events : List (DChange K EP))
        (discoverFails : Bool) (beh : Nat → EP → PollRes)
        (rng : Nat → Nat → Nat × Nat) (res : PollReadyRes),
      pollReady st events discoverFails beh rng = some (st1, res) →
      (res = PollReadyRes.errDiscover ↔ discoverFails = true))
    ∧ (∀ (k : K) (e : EP) (beh : Nat → EP → PollRes)
        (rng : Nat → Nat → Nat × Nat),
      beh 0 e = PollRes.fail →
      pollReady ⟨[(k, e)], none⟩ [] false beh rng =
        some (⟨[], none⟩, PollReadyRes.notReady)) := by
  constructor
  · intro st st1 events discoverFails beh rng res h
    simp only [pollReady] at h
    cases discoverFails with
    | true =>
      rw [if_pos rfl] at h
      simp only [Option.some.injEq, Prod.mk.injEq] at h
      simp [← h.2]
    | false =>
      simp only [Bool.false_eq_true, if_false] at h
      constructor
      · intro hres
        subst hres
        exfalso
        rcases hri : (pollDiscover st events).readyIndex with _ | i
        · simp only [hri] at h
          exact selectPhase_ne_err h rfl
        · simp only [hri] at h
          rcases hp : pollEndpointIndexLoad beh 0 (pollDiscover st events).endpoints i
              with _ | res0
          · simp only [hp] at h
            exact Option.noConfusion h
          · simp only [hp] at h
            cases res0 with
            | ready l0 =>
              simp only [Option.some.injEq, Prod.mk.injEq] at h
              exact PollReadyRes.noConfusion h.2
            | notReady => exact selectPhase_ne_err h rfl
            | fail => exact selectPhase_ne_err h rfl
      · intro hc
        exact Bool.noConfusion hc
  · intro k e beh rng hfail
    simp [pollReady, pollDiscover, selectPhase, selectLoop, pollReadyIndex,
      pollEndpointIndexLoad, swapRemoveAt, hfail]

/-- C4 witness: at a concrete execution without a discovery failure the
result is NotReady rather than an error, and a failing sole endpoint is
evicted with the error swallowed. -/
theorem poll_ready_error_policy_witness :
    ((PollReadyRes.notReady = PollReadyRes.errDiscover ↔ false = true)
      ∧ pollReady (⟨[((7 : Nat), PollRes.fail)], none⟩ : Balancer Nat PollRes)
          [] false (fun _ e => e) (fun _ _ => (0, 1)) =
        some (⟨[], none⟩, PollReadyRes.notReady)) :=
  ⟨(@poll_ready_error_policy Nat PollRes _).1 ⟨[(7, PollRes.fail)], none⟩
      ⟨[], none⟩ [] false (fun _ e => e) (fun _ _ => (0, 1))
      PollReadyRes.notReady (by rfl),
    (@poll_ready_error_policy Nat PollRes _).2 7 PollRes.fail (fun _ e => e)
      (fun _ _ => (0, 1)) rfl⟩

/-- C5: dispatch takes the ready index (leaving None) and forwards the
request to the endpoint at that position; calling it with no ready index is
a fatal error (modelled none) and no endpoint receives the request; and a
second dispatch without an intervening Ready is likewise fatal. -/
theorem dispatch_consumes_ready_index :
    (∀ (st : Balancer K EP) (i : Nat) (k : K) (e : EP),
      st.readyIndex = some i → st.endpoints[i]? = some (k, e) →
      Balancer.call st = some ((i, e), { st with readyIndex := none }))
    ∧ (∀ st : Balancer K EP, st.readyIndex = none → Balancer.call st = none)
    ∧ (∀ (st st1 : Balancer K EP) (i : Nat) (e : EP),
      Balancer.call st = some ((i, e), st1) → Balancer.call st1 = none) := by
  refine ⟨?_, ?_, ?_⟩
  · intro st i k e hri hget
    simp only [Balancer.call, hri, hget]
  · intro st hri
    rw [Balancer.call, hri]
  · intro st st1 i e hc
    rw [Balancer.call] at hc
    rcases hri : st.readyIndex with _ | i0
    · simp only [hri] at hc
      exact Option.noConfusion hc
    · simp only [hri] at hc
      rcases hg : st.endpoints[i0]? with _ | p
      · simp only [hg] at hc
        exact Option.noConfusion hc
      · simp only [hg, Option.some.injEq, Prod.mk.injEq] at hc
        rw [Balancer.call, ← hc.2]

/-- C5 witness: dispatch at a concrete ready state consumes the index; a
second dispatch and a dispatch with no ready index are fatal. -/
theorem dispatch_consumes_ready_index_witness :
    (Balancer.call (⟨[((5 : Nat), PollRes.ready 2)], some 0⟩ : Balancer Nat PollRes) =
      some ((0, PollRes.ready 2),
        { (⟨[((5 : Nat), PollRes.ready 2)], some 0⟩ : Balancer Nat PollRes) with
            readyIndex := none }))
    ∧ Balancer.call (⟨[((5 : Nat), PollRes.ready 2)], none⟩ : Balancer Nat PollRes) = none
    ∧ Balancer.call (⟨[((5 : Nat), PollRes.ready 2)], none⟩ : Balancer Nat PollRes) = none :=
  ⟨(@dispatch_consumes_ready_index Nat PollRes _).1
      ⟨[(5, PollRes.ready 2)], some 0⟩ 0 5 (PollRes.ready 2) rfl rfl,
    (@dispatch_consumes_ready_index Nat PollRes _).2.1
      ⟨[(5, PollRes.ready 2)], none⟩ rfl,
    (@dispatch_consumes_ready_index Nat PollRes _).2.2
      ⟨[(5, PollRes.ready 2)], some 0⟩ ⟨[(5, PollRes.ready 2)], none⟩ 0
      (PollRes.ready 2) (by rfl)⟩

/-- C6: the P2C decision rule for one selection round with samples (a, b):
both ready picks a iff la is at most lb (ties to a), exactly one ready picks
that one; and the concrete scenario with loads 5 and 2 under RNG (0, 1)
returns Ready holding index 1. -/
theorem p2c_decision_rule :
    (∀ (st : Balancer K EP) (beh : Nat → EP → PollRes)
        (rng : Nat → Nat → Nat × Nat) (r t a b la lb : Nat) (ka kb : K)
        (ea eb : EP),
      2 ≤ st.endpoints.length →
      rng r st.endpoints.length = (a, b) →
      st.endpoints[a]? = some (ka, ea) →
      st.endpoints[b]? = some (kb, eb) →
      (beh t ea = PollRes.ready la → beh (t + 1) eb = PollRes.ready lb →
        pollReadyIndex beh rng r t st =
          some (st, t + 2, some (if la ≤ lb then a else b)))
      ∧ (beh t ea = PollRes.ready la → beh (t + 1) eb = PollRes.notReady →
        pollReadyIndex beh rng r t st = some (st, t + 2, some a))
      ∧ (beh t ea = PollRes.notReady → beh (t + 1) eb = PollRes.ready lb →
        pollReadyIndex beh rng r t st = some (st, t + 2, some b)))
    ∧ (pollReady (⟨[], none⟩ : Balancer Nat PollRes)
        [DChange.insert 0 (PollRes.ready 5), DChange.insert 1 (PollRes.ready 2)]
        false (fun _ e => e) (fun _ _ => (0, 1)) =
      some (⟨[(0, PollRes.ready 5), (1, PollRes.ready 2)], some 1⟩,
        PollReadyRes.ready)) := by
  constructor
  · intro st beh rng r t a b la lb ka kb ea eb hlen hrng hga hgb
    have h0 : ¬ st.endpoints.length = 0 := by omega
    have h1 : ¬ st.endpoints.length = 1 := by omega
    refine ⟨?_, ?_, ?_⟩
    · intro hba hbb
      simp only [pollReadyIndex, if_neg h0, if_neg h1, hrng, pollSample,
        pollEndpointIndexLoad, hga, hgb, hba, hbb]
      rw [apply_ite some]
    · intro hba hbb
      simp only [pollReadyIndex, if_neg h0, if_neg h1, hrng, pollSample,
        pollEndpointIndexLoad, hga, hgb, hba, hbb]
    · intro hba hbb
      simp only [pollReadyIndex, if_neg h0, if_neg h1, hrng, pollSample,
        pollEndpointIndexLoad, hga, hgb, hba, hbb]
  · rfl

/-- C6 witness: the decision rule applied at the concrete two-endpoint table
with loads 5 and 2 and samples (0, 1): the less loaded endpoint 1 wins. -/
theorem p2c_decision_rule_witness :
    ((fun _ (e : PollRes) => e) 0 (PollRes.ready 5) = PollRes.ready 5 →
      (fun _ (e : PollRes) => e) 1 (PollRes.ready 2) = PollRes.ready 2 →
      pollReadyIndex (fun _ e => e) (fun _ _ => (0, 1)) 0 0
          (⟨[(0, PollRes.ready 5), (1, PollRes.ready 2)], none⟩ : Balancer Nat PollRes) =
        some (⟨[(0, PollRes.ready 5), (1, PollRes.ready 2)], none⟩, 0 + 2,
          some (if 5 ≤ 2 then 0 else 1))) :=
  ((@p2c_decision_rule Nat PollRes _).1
    ⟨[(0, PollRes.ready 5), (1, PollRes.ready 2)], none⟩ (fun _ e => e)
    (fun _ _ => (0, 1)) 0 0 0 1 5 2 0 1 (PollRes.ready 5) (PollRes.ready 2)
    (by decide) rfl rfl rfl).1

/-! ## The elastic pool (src/tower-pool) -/

/-- Load level signal shared between Pool and PoolDiscover. -/
inductive Level : Type where
  | low
  | normal
  | high
  deriving DecidableEq

/-- Pool options (builder.rs defaults: init 0.1, low 0.00001, high 0.2,
alpha 0.03).  The f64 fields are modelled as exact rationals. -/
structure PoolOptions : Type where
  low : Rat
  high : Rat
  init : Rat
  alpha : Rat
  deriving DecidableEq

/-- The state read and written by Pool::poll_ready: the EWMA estimate and
the discover fields it touches (level, services, whether a make is in
flight). -/
structure PoolState : Type where
  ewma : Rat
  level : Level
  services : Nat
  making : Bool
  deriving DecidableEq

/-- Result of the inner balancer poll as observed by Pool::poll_ready (an
inner error propagates before any state is touched). -/
inductive InnerPoll : Type where
  | ready
  | notReady
  deriving DecidableEq

/-- Pool::poll_ready from src/tower-pool/src/mod.rs: the EWMA control step
around the inner balancer result. -/
def poolPollReady (opts : PoolOptions) (st : PoolState) (inner : InnerPoll) :
    PoolState × InnerPoll :=
  match inner with
  | InnerPoll.ready =>
    let ewma1 := (1 - opts.alpha) * st.ewma
    if ewma1 < opts.low then
      if st.services > 1 then
        ({ st with ewma := opts.init, level := Level.low }, InnerPoll.ready)
      else
        ({ st with ewma := ewma1, level := Level.low }, InnerPoll.ready)
    else
      ({ st with ewma := ewma1, level := Level.normal }, InnerPoll.ready)
  | InnerPoll.notReady =>
    if st.making = false then
      let ewma1 := opts.alpha + (1 - opts.alpha) * st.ewma
      if ewma1 > opts.high then
        ({ st with ewma := ewma1, level := Level.high }, InnerPoll.notReady)
      else
        ({ st with ewma := ewma1, level := Level.normal }, InnerPoll.notReady)
    else
      (st, InnerPoll.notReady)

/-- C7: on each Pool::poll_ready, inner Ready gives ewma (1 - a) * ewma and
level Low when the new ewma is below low (resetting ewma to init when
services > 1) else Normal, returning Ready; inner NotReady with no make in
flight gives ewma a + (1 - a) * ewma and level High when the new ewma
exceeds high (without resetting) else Normal, returning NotReady; inner
NotReady with a make in flight leaves the state unchanged. -/
theorem pool_ewma_control_step (opts : PoolOptions) (st : PoolState) :
    (poolPollReady opts st InnerPoll.ready =
      (if (1 - opts.alpha) * st.ewma < opts.low then
        { st with
            ewma := if st.services > 1 then opts.init
              else (1 - opts.alpha) * st.ewma,
            level := Level.low }
      else
        { st with ewma := (1 - opts.alpha) * st.ewma, level := Level.normal },
        InnerPoll.ready))
    ∧ (st.making = false →
      poolPollReady opts st InnerPoll.notReady =
        (if opts.alpha + (1 - opts.alpha) * st.ewma > opts.high then
          { st with
              ewma := opts.alpha + (1 - opts.alpha) * st.ewma,
              level := Level.high }
        else
          { st with
              ewma := opts.alpha + (1 - opts.alpha) * st.ewma,
              level := Level.normal },
          InnerPoll.notReady))
    ∧ (st.making = true →
      poolPollReady opts st InnerPoll.notReady = (st, InnerPoll.notReady)) := by
  refine ⟨?_, ?_, ?_⟩
  · simp only [poolPollReady]
    by_cases hlow : (1 - opts.alpha) * st.ewma < opts.low
    · simp only [if_pos hlow]
      by_cases hs : st.services > 1
      · simp only [if_pos hs]
      · simp only [if_neg hs]
    · simp only [if_neg hlow]
  · intro hm
    simp only [poolPollReady, if_pos hm]
    by_cases hc : opts.alpha + (1 - opts.alpha) * st.ewma > opts.high
    · simp only [if_pos hc]
    · simp only [if_neg hc]
  · intro hm
    simp only [poolPollReady, hm, Bool.true_eq_false, if_false]

/-- C7 witness: the NotReady cases at concrete states, with and without a
make in flight. -/
theorem pool_ewma_control_step_witness :
    (poolPollReady ⟨1 / 100000, 1 / 5, 1 / 10, 3 / 100⟩
        ⟨1 / 10, Level.normal, 1, false⟩ InnerPoll.notReady =
      (if (3 : Rat) / 100 + (1 - 3 / 100) * (1 / 10) > 1 / 5 then
        { (⟨1 / 10, Level.normal, 1, false⟩ : PoolState) with
            ewma := 3 / 100 + (1 - 3 / 100) * (1 / 10)
            level := Level.high }
      else
        { (⟨1 / 10, Level.normal, 1, false⟩ : PoolState) with
            ewma := 3 / 100 + (1 - 3 / 100) * (1 / 10)
            level := Level.normal },
        InnerPoll.notReady))
    ∧ (poolPollReady ⟨1 / 100000, 1 / 5, 1 / 10, 3 / 100⟩
        ⟨1 / 10, Level.normal, 1, true⟩ InnerPoll.notReady =
      (⟨1 / 10, Level.normal, 1, true⟩, InnerPoll.notReady)) :=
  ⟨(pool_ewma_control_step ⟨1 / 100000, 1 / 5, 1 / 10, 3 / 100⟩
      ⟨1 / 10, Level.normal, 1, false⟩).2.1 rfl,
    (pool_ewma_control_step ⟨1 / 100000, 1 / 5, 1 / 10, 3 / 100⟩
      ⟨1 / 10, Level.normal, 1, true⟩).2.2 rfl⟩

/-! ## Weight (src/tower-balance/src/load/weight.rs) -/

/-- Model of an f64 input: NaN, the two infinities, or a finite value
(finite values are modelled as exact rationals). -/
inductive F64 : Type where
  | nan
  | posInf
  | negInf
  | finite (q : Rat)
  deriving DecidableEq

namespace Weight

/-- Weight::ZERO. -/
def ZERO : Nat := 0

/-- Weight::MIN. -/
def MIN : Nat := 1

/-- Weight::UNIT. -/
def UNIT : Nat := 10000

/-- Weight::MAX (u32::MAX). -/
def MAX : Nat := 4294967295

end Weight

/-- The Rust cast `as u32` of a finite f64 value: truncate toward zero and
saturate into [0, u32::MAX]. -/
def rustCastU32 (q : Rat) : Nat := min ⌊q⌋₊ Weight.MAX

/-- The conversion the source applies to x * 10_000 (what the spec calls
round_to_unit): the saturating toward-zero cast. -/
def roundToUnit (q : Rat) : Nat := rustCastU32 (q * 10000)

/-- impl From<f64> for Weight (load/weight.rs): NaN or nonpositive gives
ZERO, positive infinity gives MAX, otherwise the value times 10000 cast to
u32, with MIN substituted when the cast yields 0. -/
def weightFromF64 : F64 → Nat
  | F64.nan => Weight.ZERO
  | F64.negInf => Weight.ZERO
  | F64.posInf => Weight.MAX
  | F64.finite q =>
    if q ≤ 0 then Weight.ZERO
    else
      let w := rustCastU32 (q * 10000)
      if w = 0 then Weight.MIN else w

/-- C8: Weight::from(x) is ZERO when x is NaN or x ≤ 0, MAX when x = +inf,
and otherwise round_to_unit(x * 10_000) with a minimum of MIN for positive
inputs that round to 0; in particular from(1.0) = UNIT = 10_000 and
from(0.00001) = MIN = 1. -/
theorem weight_from_real (q : Rat) :
    weightFromF64 F64.nan = Weight.ZERO
    ∧ weightFromF64 F64.negInf = Weight.ZERO
    ∧ (q ≤ 0 → weightFromF64 (F64.finite q) = Weight.ZERO)
    ∧ weightFromF64 F64.posInf = Weight.MAX
    ∧ (0 < q → weightFromF64 (F64.finite q) = max Weight.MIN (roundToUnit q))
    ∧ weightFromF64 (F64.finite 1) = Weight.UNIT
    ∧ weightFromF64 (F64.finite (1 / 100000)) = Weight.MIN := by
  refine ⟨rfl, rfl, ?_, rfl, ?_, ?_, ?_⟩
  · intro hq
    simp only [weightFromF64, if_pos hq]
  · intro hq
    have hq0 : ¬ q ≤ 0 := not_le.mpr hq
    simp only [weightFromF64, if_neg hq0, roundToUnit]
    by_cases hw : rustCastU32 (q * 10000) = 0
    · simp [hw, Weight.MIN]
    · rw [if_neg hw]
      have h1 : Weight.MIN ≤ rustCastU32 (q * 10000) := by
        rw [Weight.MIN]
        omega
      exact (Nat.max_eq_right h1).symm
  · show (if (1 : Rat) ≤ 0 then Weight.ZERO
      else if rustCastU32 ((1 : Rat) * 10000) = 0 then Weight.MIN
      else rustCastU32 ((1 : Rat) * 10000)) = Weight.UNIT
    norm_num [rustCastU32, Weight.MAX, Weight.UNIT]
  · show (if (1 : Rat) / 100000 ≤ 0 then Weight.ZERO
      else if rustCastU32 ((1 : Rat) / 100000 * 10000) = 0 then Weight.MIN
      else rustCastU32 ((1 : Rat) / 100000 * 10000)) = Weight.MIN
    norm_num [rustCastU32, Weight.MAX, Weight.MIN]

/-- C8 witness: the positive case applied at the concrete input 2.5, whose
scaled cast is 25000. -/
theorem weight_from_real_witness :
    (0 : Rat) < 5 / 2
    ∧ weightFromF64 (F64.finite (5 / 2)) = max Weight.MIN (roundToUnit (5 / 2)) :=
  ⟨by norm_num, ((weight_from_real (5 / 2)).2.2.2.2.1 (by norm_num))⟩

/-! ## PoolDiscover (src/tower-pool/src/discover.rs) -/

/-- Outcome of polling the in-flight make future. -/
inductive MakeRes : Type where
  | pending
  | done
  | failed
  deriving DecidableEq

/-- The state of PoolDiscover: whether a construction is in flight, the
level written by Pool, and the count of live services. -/
structure DiscoverState : Type where
  making : Bool
  level : Level
  services : Nat
  deriving DecidableEq

/-- Result of one PoolDiscover::poll. -/
inductive DiscoverOut : Type where
  | insert (key : Nat)
  | remove (key : Nat)
  | notReady
  | errMake
  deriving DecidableEq

/-- PoolDiscover::poll (discover.rs).  makerReady is the factory readiness
(a not-ready factory makes the High path return NotReady early), mk the
outcome of polling the in-flight construction; the result none models the
unreachable branch (High level reaching the final match). -/
def discoverPoll (st0 : DiscoverState) (makerReady : Bool) (mk : MakeRes) :
    Option (DiscoverState × DiscoverOut) :=
  let st1 := if st0.services = 0 ∧ st0.making = false then
      { st0 with making := true } else st0
  if st1.level = Level.high ∧ st1.making = false ∧ makerReady = false then
    some (st1, DiscoverOut.notReady)
  else
    let st2 := if st1.level = Level.high ∧ st1.making = false then
        { st1 with making := true } else st1
    if st2.making = true then
      match mk with
      | MakeRes.pending => some (st2, DiscoverOut.notReady)
      | MakeRes.done =>
        some ({ st2 with
            making := false
            services := st2.services + 1
            level := Level.normal },
          DiscoverOut.insert (st2.services + 1))
      | MakeRes.failed =>
        some ({ st2 with making := false }, DiscoverOut.errMake)
    else
      match st2.level with
      | Level.high => none
      | Level.normal => some (st2, DiscoverOut.notReady)
      | Level.low =>
        if st2.services = 1 then some (st2, DiscoverOut.notReady)
        else
          some ({ st2 with level := Level.normal, services := st2.services - 1 },
            DiscoverOut.remove st2.services)

/-- C10: the unreachable branch for level High in the final match of
PoolDiscover::poll never executes: a High level with nothing being made
either starts a construction or returns NotReady early, and polling an
in-flight construction always returns, so the poll function is total. -/
theorem discover_poll_high_unreachable (st : DiscoverState) (makerReady : Bool)
    (mk : MakeRes) : (discoverPoll st makerReady mk).isSome = true := by
  rcases st with ⟨m0, lv, s⟩
  by_cases h0 : s = 0 <;> by_cases h1 : s = 1 <;>
    cases m0 <;> cases lv <;> cases makerReady <;> cases mk <;>
      simp [discoverPoll, h0, h1]

/-- Events driving PoolDiscover: Pool writing the level signal, or one poll
with the given oracle outcomes. -/
inductive PoolEvent : Type where
  | setLevel (lv : Level)
  | poll (makerReady : Bool) (mk : MakeRes)
  deriving DecidableEq

/-- Run a sequence of events from a state, collecting every poll result. -/
def runDiscover : DiscoverState → List PoolEvent → Option (DiscoverState × List DiscoverOut)
  | st, [] => some (st, [])
  | st, PoolEvent.setLevel lv :: rest => runDiscover { st with level := lv } rest
  | st, PoolEvent.poll mr mk :: rest =>
    match discoverPoll st mr mk with
    | none => none
    | some (st1, out) =>
      match runDiscover st1 rest with
      | none => none
      | some (st2, outs) => some (st2, out :: outs)

/-- The PoolDiscover state constructed by the builder: nothing being made,
Normal level, zero services. -/
def discoverInit : DiscoverState := ⟨false, Level.normal, 0⟩

/-- Keys of the Insert events in a list of poll results, in order. -/
def insertKeys (outs : List DiscoverOut) : List Nat :=
  outs.filterMap fun o =>
    match o with
    | DiscoverOut.insert k => some k
    | _ => none

/-- C9 counterexample: insert, insert, remove, insert from the initial state
emits Insert keys 1, 2, 2 - the key 2 is reused after Remove(2), so Insert
keys are not strictly increasing across removals. -/
theorem pool_discover_keys_counterexample :
    runDiscover discoverInit
      [PoolEvent.poll true MakeRes.done, PoolEvent.setLevel Level.high,
        PoolEvent.poll true MakeRes.done, PoolEvent.setLevel Level.low,
        PoolEvent.poll true MakeRes.pending, PoolEvent.setLevel Level.high,
        PoolEvent.poll true MakeRes.done] =
      some (⟨false, Level.normal, 2⟩,
        [DiscoverOut.insert 1, DiscoverOut.insert 2, DiscoverOut.remove 2,
          DiscoverOut.insert 2])
    ∧ ¬ List.Chain' (fun a b => a < b)
        (insertKeys [DiscoverOut.insert 1, DiscoverOut.insert 2,
          DiscoverOut.remove 2, DiscoverOut.insert 2]) := by
  constructor
  · rfl
  · intro hcon
    have hkeys : insertKeys [DiscoverOut.insert 1, DiscoverOut.insert 2,
        DiscoverOut.remove 2, DiscoverOut.insert 2] = [1, 2, 2] := rfl
    rw [hkeys, List.chain'_cons, List.chain'_cons] at hcon
    omega

/-- Shape of one poll step: it emits a Remove, or it emits an Insert keyed
by the incremented service count, or it leaves the service count unchanged
and emits no Insert. -/
theorem discoverPoll_step_shape {st st1 : DiscoverState} {mr : Bool}
    {mk : MakeRes} {out : DiscoverOut}
    (h : discoverPoll st mr mk = some (st1, out)) :
    (∃ k, out = DiscoverOut.remove k) ∨
    (out = DiscoverOut.insert (st.services + 1) ∧
      st1.services = st.services + 1) ∨
    ((∀ k, out ≠ DiscoverOut.insert k) ∧ st1.services = st.services) := by
  rcases st with ⟨m0, lv, s⟩
  by_cases h0 : s = 0 <;> by_cases h1 : s = 1 <;>
    cases m0 <;> cases lv <;> cases mr <;> cases mk <;>
      simp [discoverPoll, h0, h1] at h <;>
        (obtain ⟨hst, hout⟩ := h
         subst hst
         subst hout
         simp [h0, h1])

/-- C9 amended, helper induction: along any event sequence whose polls emit
no Remove, the service count never decreases, the Insert keys are strictly
increasing, and every emitted key lies in (services at start, services at
end]. -/
theorem runDiscover_keys_mono (evs : List PoolEvent) :
    ∀ (st st2 : DiscoverState) (outs : List DiscoverOut),
      runDiscover st evs = some (st2, outs) →
      (∀ k, DiscoverOut.remove k ∉ outs) →
      st.services ≤ st2.services ∧
      List.Chain' (fun a b => a < b) (insertKeys outs) ∧
      ∀ k ∈ insertKeys outs, st.services < k ∧ k ≤ st2.services := by
  induction evs with
  | nil =>
    intro st st2 outs h hno
    simp only [runDiscover, Option.some.injEq, Prod.mk.injEq] at h
    obtain ⟨h1, h2⟩ := h
    subst h1
    subst h2
    simp [insertKeys]
  | cons ev rest ih =>
    intro st st2 outs h hno
    cases ev with
    | setLevel lv =>
      simp only [runDiscover] at h
      have := ih { st with level := lv } st2 outs h hno
      exact this
    | poll mr mk =>
      simp only [runDiscover] at h
      rcases hd : discoverPoll st mr mk with _ | p
      · simp only [hd] at h
        exact Option.noConfusion h
      · rcases p with ⟨stm, out⟩
        simp only [hd] at h
        rcases hr : runDiscover stm rest with _ | q
        · simp only [hr] at h
          exact Option.noConfusion h
        · rcases q with ⟨st3, outs1⟩
          simp only [hr, Option.some.injEq, Prod.mk.injEq] at h
          obtain ⟨h1, h2⟩ := h
          subst h1
          subst h2
          have hno1 : ∀ k, DiscoverOut.remove k ∉ outs1 := by
            intro k hk
            exact hno k (List.mem_cons_of_mem _ hk)
          have hnoh : ∀ k, out ≠ DiscoverOut.remove k := by
            intro k hk
            exact hno k (hk ▸ List.mem_cons_self _ _)
          obtain ⟨hle, hchain, hbounds⟩ := ih stm st3 outs1 hr hno1
          rcases discoverPoll_step_shape hd with ⟨k, hk⟩ | ⟨hout, hserv⟩ | ⟨hout, hserv⟩
          · exact absurd hk (hnoh k)
          · subst hout
            refine ⟨by omega, ?_, ?_⟩
            · rw [insertKeys, List.filterMap_cons]
              simp only []
              rw [List.chain'_cons']
              refine ⟨?_, hchain⟩
              intro y hy
              have hmem : y ∈ insertKeys outs1 := List.mem_of_mem_head? hy
              have := hbounds y hmem
              omega
            · intro k hk
              rw [insertKeys, List.filterMap_cons] at hk
              simp only [] at hk
              rcases List.mem_cons.mp hk with hk1 | hk2
              · subst hk1
                constructor
                · omega
                · omega
              · have := hbounds k hk2
                omega
          · refine ⟨by omega, ?_, ?_⟩
            · rw [insertKeys, List.filterMap_cons]
              have : (match out with
                  | DiscoverOut.insert k => some k
                  | _ => none) = none := by
                cases out with
                | insert k => exact absurd rfl (hout k)
                | remove k => rfl
                | notReady => rfl
                | errMake => rfl
              rw [this]
              exact hchain
            · intro k hk
              rw [insertKeys, List.filterMap_cons] at hk
              have : (match out with
                  | DiscoverOut.insert k => some k
                  | _ => none) = none := by
                cases out with
                | insert k0 => exact absurd rfl (hout k0)
                | remove k0 => rfl
                | notReady => rfl
                | errMake => rfl
              rw [this] at hk
              have := hbounds k hk
              omega

/-- C9 amended: the key carried by each Insert equals the incremented live
service count, so over any event sequence from the initial PoolDiscover
state in which no Remove is emitted, the Insert keys are strictly
increasing; after a Remove a key may be reused (see the counterexample). -/
theorem pool_discover_keys_amended (evs : List PoolEvent) (st2 : DiscoverState)
    (outs : List DiscoverOut)
    (h : runDiscover discoverInit evs = some (st2, outs))
    (hno : ∀ k, DiscoverOut.remove k ∉ outs) :
    List.Chain' (fun a b => a < b) (insertKeys outs) :=
  (runDiscover_keys_mono evs discoverInit st2 outs h hno).2.1

/-- C9 witness: a remove-free trace that makes two services; its Insert keys
1, 2 are strictly increasing. -/
theorem pool_discover_keys_amended_witness :
    List.Chain' (fun a b => a < b)
      (insertKeys [DiscoverOut.insert 1, DiscoverOut.notReady,
        DiscoverOut.insert 2]) :=
  pool_discover_keys_amended
    [PoolEvent.poll true MakeRes.done, PoolEvent.setLevel Level.high,
      PoolEvent.poll false MakeRes.pending, PoolEvent.setLevel Level.high,
      PoolEvent.poll true MakeRes.done]
    ⟨false, Level.normal, 2⟩
    [DiscoverOut.insert 1, DiscoverOut.notReady, DiscoverOut.insert 2]
    (by rfl) (by intro k hk; simp at hk)

end Tower
